import Mathlib

/-!
Verification of the attribution utility `src/scripts/analyze-claude-lines.py`.

Shallow embedding conventions:
* Python `str` is modelled as `List Char` (`Str`); string operations
  (`strip`, `split`, `join`, `ljust`, `startswith`, comparison) are modelled
  as executable functions on character lists below.
* Python dicts from file path to set of line numbers (`defaultdict(set)`) are
  modelled as insertion-ordered association lists (`Dict`); subscripting a
  `defaultdict` inserts the missing key bound to the empty set (`ddGet`).
* Every `print(...)` call is modelled as an emitted `Msg`, tagged with the
  channel the source directs it to: bare `print` writes to `Chan.stdout`,
  `print(..., file=sys.stderr)` writes to `Chan.stderr`.
* `int(token)` is modelled by `pyInt?` for the decimal-digit tokens this
  program manipulates (the sign / underscore / non-ASCII digit forms Python
  additionally accepts never arise here); `str(n)` is modelled by `natDigits`.
* The external collaborators (the data file and the `git diff` subprocess)
  are modelled by their observable text: the file's lines (`none` when the
  file does not exist, i.e. `FileNotFoundError`) and the diff's stdout.
-/

namespace ClaudeLines

/-- Python `str`, modelled as the list of its characters (code points). -/
abbrev Str := List Char

/-- Output channel of a Python `print` call. -/
inductive Chan
  | stdout
  | stderr
deriving DecidableEq, Repr

/-- One emitted diagnostic or output line: channel plus text. -/
abbrev Msg := Chan × Str

/-- A Python dict from file path to set of line numbers, as an
insertion-ordered association list. -/
abbrev Dict := List (Str × Finset ℕ)

/-- Look up a key (Python `d[k]` / `k in d`), first binding wins. -/
def dictLookup (d : Dict) (k : Str) : Option (Finset ℕ) :=
  match d with
  | [] => none
  | (k0, v) :: rest => if k0 = k then some v else dictLookup rest k

/-- The keys of the dict, in insertion order. -/
def dictKeys (d : Dict) : List Str :=
  d.map Prod.fst

/-- Python `d[k] = v`: replace the first binding of `k` in place, or append a
new binding at the end (dicts keep insertion order). -/
def dictSet (d : Dict) (k : Str) (v : Finset ℕ) : Dict :=
  match d with
  | [] => [(k, v)]
  | (k0, v0) :: rest =>
    if k0 = k then (k0, v) :: rest else (k0, v0) :: dictSet rest k v

/-- The value at `k`, defaulting to the empty set (`defaultdict(set)` read). -/
def dictGetD (d : Dict) (k : Str) : Finset ℕ :=
  (dictLookup d k).getD ∅

/-- Subscripting a `defaultdict(set)`: yields the value at `k` and, when `k`
is absent, also inserts `k` bound to the empty set. -/
def ddGet (d : Dict) (k : Str) : Finset ℕ × Dict :=
  match dictLookup d k with
  | some v => (v, d)
  | none => (∅, d ++ [(k, ∅)])

/-- ASCII whitespace test used by Python `str.strip` (the forms occurring in
line-oriented input: space, tab, newline, carriage return). -/
def isSpace (c : Char) : Bool :=
  c == ' ' || c == '\t' || c == '\n' || c == '\r'

/-- Python `s.strip()`: drop leading and trailing whitespace. -/
def pyStrip (cs : Str) : Str :=
  ((cs.dropWhile isSpace).reverse.dropWhile isSpace).reverse

/-- ASCII decimal digit test (Python `\d` / `int` digits as used here). -/
def isDigitC (c : Char) : Bool :=
  48 ≤ c.toNat && c.toNat ≤ 57

/-- Numeric value of a most-significant-first digit string. -/
def digitsVal (cs : Str) : ℕ :=
  cs.foldl (fun a c => 10 * a + (c.toNat - 48)) 0

/-- Python `int(s)` on the tokens this program handles: surrounding
whitespace is tolerated, then a non-empty all-digit string parses to its
value; anything else raises `ValueError`, modelled as `none`. -/
def pyInt? (cs : Str) : Option ℕ :=
  let s := pyStrip cs
  if s = [] then none
  else if s.all isDigitC then some (digitsVal s) else none

/-- Fuel-based decimal rendering of a positive natural, most significant
digit first; the fuel (always instantiated with the number itself, an upper
bound on the digit count) makes the recursion structural. -/
def natDigitsAux : ℕ → ℕ → Str
  | _, 0 => []
  | 0, _ + 1 => []
  | fuel + 1, n + 1 =>
    natDigitsAux fuel ((n + 1) / 10) ++ [Char.ofNat (48 + (n + 1) % 10)]

/-- Python `str(n)` for a natural number: decimal digits, most significant
first. -/
def natDigits (n : ℕ) : Str :=
  if n = 0 then ['0'] else natDigitsAux n n

/-- Python `s.split(sep)` for a one-character separator: empty fields are
kept and the empty string splits to `[""]`. -/
def splitOnChar (sep : Char) : Str → List Str
  | [] => [[]]
  | c :: cs =>
    if c = sep then [] :: splitOnChar sep cs
    else
      match splitOnChar sep cs with
      | [] => [[c]]
      | t :: ts => (c :: t) :: ts

/-- Python `sep.join(parts)` for a one-character separator. -/
def joinSep (sep : Char) : List Str → Str
  | [] => []
  | [t] => t
  | t :: ts => t ++ sep :: joinSep sep ts

/-- Warning printed (by bare `print`, hence to stdout) for a range token
`A-B` that fails to convert; the quotes the f-string puts around the token
are omitted from the modelled text. -/
def warnRange (t fp : Str) : Str :=
  "Warning: Could not parse range ".toList ++ t ++ " in file ".toList ++ fp

/-- Warning printed (by bare `print`, hence to stdout) for a single-number
token that fails to convert; quotes around the token omitted as above. -/
def warnLineNo (t fp : Str) : Str :=
  "Warning: Could not parse line number ".toList ++ t ++ " in file ".toList ++ fp

/-- Processing of one comma-separated line-spec token inside
`parse_claude_data` (source lines 28-40).  The token is stripped; a token
containing a dash takes the range branch (`start, end = map(int,
token.split('-'))` then `claude_files[filepath].update(range(start, end+1))`,
the dict subscript happening only after both conversions succeed); any other
token takes the single-number branch, where CPython evaluates the subscript
`claude_files[filepath].add` — creating the key — before `int(token)` runs. -/
def tokenStep (filepath : Str) (acc : List Msg × Dict) (tok : Str) : List Msg × Dict :=
  let msgs := acc.1
  let d := acc.2
  let t := pyStrip tok
  if '-' ∈ t then
    match splitOnChar '-' t with
    | [a, b] =>
      match pyInt? a, pyInt? b with
      | some s, some e =>
        let p := ddGet d filepath
        (msgs, dictSet p.2 filepath (p.1 ∪ Finset.Icc s e))
      | _, _ => (msgs ++ [(Chan.stdout, warnRange t filepath)], d)
    | _ => (msgs ++ [(Chan.stdout, warnRange t filepath)], d)
  else
    let p := ddGet d filepath
    match pyInt? t with
    | some n => (msgs, dictSet p.2 filepath (insert n p.1))
    | none => (msgs ++ [(Chan.stdout, warnLineNo t filepath)], p.2)

/-- The loop over `ranges.split(',')` for one record line. -/
def processRangesField (filepath ranges : Str) (acc : List Msg × Dict) : List Msg × Dict :=
  (splitOnChar ',' ranges).foldl (tokenStep filepath) acc

/-- Processing of one line of the data file: strip, split on `|`; only lines
with exactly three fields are processed (others are silently skipped); the
commit-hash field is unused. -/
def lineStep (acc : List Msg × Dict) (line : Str) : List Msg × Dict :=
  match splitOnChar '|' (pyStrip line) with
  | [_, filepath, ranges] => processRangesField filepath ranges acc
  | _ => acc

/-- `parse_claude_data` (source lines 16-48).  The file is modelled by its
lines, `none` meaning `FileNotFoundError`; on that error the function prints
the error (bare `print`, stdout) and returns an empty record.  The broad
`except Exception` branch is not modelled: no other exception arises in the
embedded fragment. -/
def parse_claude_data (filename : Str) (contents : Option (List Str)) : List Msg × Dict :=
  match contents with
  | none =>
    ([(Chan.stdout, "Error: Could not find Claude data file: ".toList ++ filename)], [])
  | some fileLines => fileLines.foldl lineStep ([], [])

/-- The regex search `re.search(r'\+(\d+)(?:,(\d+))?', line)`: the leftmost
occurrence of a plus sign followed by at least one digit; group 1 is the
maximal digit run after the plus, group 2 (optional) the maximal digit run
after an immediately following comma. -/
def findPlusGroups : Str → Option (Str × Option Str)
  | [] => none
  | c :: cs =>
    if c = '+' then
      let d1 := cs.takeWhile isDigitC
      if d1 = [] then findPlusGroups cs
      else
        match cs.dropWhile isDigitC with
        | ',' :: r2 =>
          let d2 := r2.takeWhile isDigitC
          if d2 = [] then some (d1, none) else some (d1, some d2)
        | _ => some (d1, none)
    else findPlusGroups cs

/-- `int(match.group(2)) if match.group(2) else 1`: the new-side count
defaults to 1 when the comma group is absent. -/
def optCount : Option Str → Option ℕ
  | some g => pyInt? g
  | none => some 1

/-- Warning text of the (unreachable) hunk-header `except ValueError`
branch. -/
def warnHunk (line : Str) : Str :=
  "Warning: Could not parse hunk header: ".toList ++ line

/-- `for i in range(start_line, start_line + count): final_lines[f].add(i)`:
each iteration subscripts the defaultdict (creating the key on the first
iteration) and inserts one line number; with count 0 the loop body never
runs and the key is never created. -/
def addLines (m : Dict) (f : Str) (s c : ℕ) : Dict :=
  (List.range' s c).foldl
    (fun mm i =>
      let p := ddGet mm f
      dictSet p.2 f (insert i p.1)) m

/-- Processing of one line of the diff output (source lines 64-80): a line
starting with `+++` re-establishes the current file from `line[6:]` (or
unsets it when the line has at most 6 characters); a line starting with `@@`
while a current file is set is searched for the `+` groups; on a match the
start and count convert (the `except ValueError` around these conversions is
unreachable, the groups being digit runs) and the covered lines are added;
on no match the line is skipped silently. -/
def diffStep (acc : List Msg × (Option Str × Dict)) (line : Str) : List Msg × (Option Str × Dict) :=
  let msgs := acc.1
  let cf := acc.2.1
  let m := acc.2.2
  if ("+++".toList).isPrefixOf line then
    (msgs, (if 6 < line.length then some (line.drop 6) else none, m))
  else
    match cf with
    | some f =>
      if ("@@".toList).isPrefixOf line then
        match findPlusGroups line with
        | some (g1, g2) =>
          match pyInt? g1, optCount g2 with
          | some s, some c => (msgs, (some f, addLines m f s c))
          | _, _ => (msgs ++ [(Chan.stdout, warnHunk line)], (some f, m))
        | none => (msgs, (some f, m))
      else acc
    | none => acc

/-- The scan of all diff-output lines, starting with no current file and an
empty `defaultdict(set)`. -/
def processDiffLines (ls : List Str) : List Msg × (Option Str × Dict) :=
  ls.foldl diffStep ([], (none, []))

/-- `get_final_diff_lines` (source lines 51-82), the subprocess modelled by
its stdout text: `none` means the `git diff` invocation raised
`CalledProcessError`, reported by bare `print` (stdout text abbreviated to
its fixed part) with an empty result; otherwise the stdout is split on
newlines and scanned. -/
def get_final_diff_lines (diffOut : Option Str) : List Msg × Dict :=
  match diffOut with
  | none => ([(Chan.stdout, "Error running git diff: ".toList)], [])
  | some out => ((processDiffLines (splitOnChar '\n' out)).1, (processDiffLines (splitOnChar '\n' out)).2.2)

/-- `map_claude_to_final` (source lines 85-102): for each file Claude
touched, if the file also appears in the final diff, assign it the entire
final-diff line set. -/
def map_claude_to_final (claude_files final_lines : Dict) : Dict :=
  claude_files.foldl
    (fun acc kv =>
      match dictLookup final_lines kv.1 with
      | some v => dictSet acc kv.1 v
      | none => acc) []

/-- Ascending sort of the line-number list, modelling Python `sorted`. -/
def sortNat (l : List ℕ) : List ℕ :=
  List.insertionSort (· ≤ ·) l

/-- The greedy run-merging loop of `convert_lines_to_ranges` (source lines
115-130), yielding the closed ranges as start/end pairs: a current run
`[start, e]` is extended while the next sorted element is exactly `e + 1`,
otherwise closed and restarted. -/
def rangesGo (start e : ℕ) : List ℕ → List (ℕ × ℕ)
  | [] => [(start, e)]
  | x :: xs => if x = e + 1 then rangesGo start x xs else (start, e) :: rangesGo x x xs

/-- Rendering of one merged run: a singleton run as the bare number,
otherwise `start-end`. -/
def renderRange (p : ℕ × ℕ) : Str :=
  if p.1 = p.2 then natDigits p.1 else natDigits p.1 ++ '-' :: natDigits p.2

/-- `convert_lines_to_ranges` (source lines 105-132): empty input yields the
empty string; otherwise sort, merge consecutive runs, render each, and
comma-join. -/
def convert_lines_to_ranges (lines : List ℕ) : Str :=
  match sortNat lines with
  | [] => []
  | x :: xs => joinSep ',' ((rangesGo x x xs).map renderRange)

/-- Code-point lexicographic string comparison, modelling how Python
`sorted` compares the path strings. -/
def strLeB : Str → Str → Bool
  | [], _ => true
  | _ :: _, [] => false
  | a :: as, b :: bs =>
    if a.toNat < b.toNat then true
    else if b.toNat < a.toNat then false
    else strLeB as bs

/-- Python `sorted` on the key list. -/
def sortStrs (l : List Str) : List Str :=
  List.insertionSort (fun a b => strLeB a b = true) l

/-- Python `s.ljust(w)`: pad on the right with spaces to width `w`. -/
def pyLjust (cs : Str) (w : ℕ) : Str :=
  cs ++ List.replicate (w - cs.length) ' '

/-- `max(len(path) for path in keys)`; the generator max over the (in
context non-empty) key list equals the fold of `max` from 0 since lengths
are non-negative. -/
def maxKeyLen (d : Dict) : ℕ :=
  (dictKeys d).foldl (fun a fp => max a fp.length) 0

/-- A concrete enumeration of a finite set of naturals, ascending: the
numbers up to the set's maximum, filtered by membership.  Python
`list(line_set)` enumerates a set in an unspecified order; since
`convert_lines_to_ranges` sorts its argument, its result is the same for
every enumeration, and this one is used. -/
def finsetAsc (s : Finset ℕ) : List ℕ :=
  (List.range (s.sup id + 1)).filter (fun n => n ∈ s)

/-- `generate_claude_note` (source lines 135-151): the fixed two-line
header; when the dict is non-empty, one line per path in sorted order whose
range string is non-empty, the path plus colon left-justified (`ljust`) to
the longest path length plus 2, then a space and the range string; all
joined with newlines. -/
def generate_claude_note (final_claude_lines : Dict) : Str :=
  let hdr : List Str := ["claude-was-here".toList, "version: 1.0".toList]
  let allLines : List Str :=
    if final_claude_lines.isEmpty then hdr
    else
      let maxLength := maxKeyLen final_claude_lines
      hdr ++ (sortStrs (dictKeys final_claude_lines)).filterMap (fun filepath =>
        let rangesStr := convert_lines_to_ranges (finsetAsc (dictGetD final_claude_lines filepath))
        if rangesStr.isEmpty then none
        else some (pyLjust (filepath ++ [':']) (maxLength + 2) ++ ' ' :: rangesStr))
  joinSep '\n' allLines

/-- The four usage lines printed (bare `print`, stdout) when fewer than 3
positional arguments are supplied. -/
def usageLines : List Str :=
  ["Usage: python analyze_claude_lines.py <claude_data_file> <base_commit> <latest_commit>".toList,
   "".toList,
   "This script analyzes Claude Code contributions across commits and maps them".toList,
   "to the final diff, generating accurate attribution for squashed commits.".toList]

/-- Outcome of the argument check at the top of `main` (source lines
156-165): either the usage text is printed and the process exits with status
1, or execution proceeds with the three positional arguments. -/
inductive MainStart
  | usageExit (outputs : List Msg) (code : ℕ)
  | proceed (claudeDataFile baseCommit latestCommit : Str)
deriving DecidableEq, Repr

/-- `if len(sys.argv) < 4: print usage; sys.exit(1)` — `argv` includes the
program name, so fewer than 3 positional arguments means `len(argv) < 4`. -/
def mainGuard (argv : List Str) : MainStart :=
  if argv.length < 4 then
    MainStart.usageExit (usageLines.map (fun s => (Chan.stdout, s))) 1
  else
    MainStart.proceed (argv.getD 1 []) (argv.getD 2 []) (argv.getD 3 [])


/-- The set of line numbers one (already stripped) line-spec token
contributes to the record: a two-part numeric range token contributes the
inclusive interval (empty when inverted), a dash-free numeric token its
single number, anything else nothing. -/
def tokenNums (t : Str) : Finset ℕ :=
  if '-' ∈ t then
    match splitOnChar '-' t with
    | [a, b] =>
      match pyInt? a, pyInt? b with
      | some s, some e => Finset.Icc s e
      | _, _ => ∅
    | _ => ∅
  else
    match pyInt? t with
    | some n => {n}
    | none => ∅

/-- Whether processing one (already stripped) line-spec token touches the
record's key for the file: every dash-free token does (the defaultdict
subscript is evaluated before `int` can raise), and a dashed token does
exactly when it has two parts and both endpoints convert. -/
def tokenRegisters (t : Str) : Bool :=
  if '-' ∈ t then
    match splitOnChar '-' t with
    | [a, b] => (pyInt? a).isSome && (pyInt? b).isSome
    | _ => false
  else true

/-- The dict after a bare `defaultdict` subscript: unchanged when the key is
present, otherwise with the key appended bound to the empty set. -/
def ddEnsure (d : Dict) (k : Str) : Dict :=
  (ddGet d k).2

end ClaudeLines

namespace ClaudeLines

/-! ### Association-list dictionary lemmas -/

theorem dictKeys_cons (k0 : Str) (v0 : Finset ℕ) (rest : Dict) :
    dictKeys ((k0, v0) :: rest) = k0 :: dictKeys rest := rfl

theorem dictLookup_dictSet_self (d : Dict) (k : Str) (v : Finset ℕ) :
    dictLookup (dictSet d k v) k = some v := by
  induction d with
  | nil => simp [dictSet, dictLookup]
  | cons kv rest ih =>
    obtain ⟨k0, v0⟩ := kv
    by_cases h : k0 = k
    · simp [dictSet, dictLookup, h]
    · simp [dictSet, dictLookup, h, ih]

theorem dictLookup_dictSet_ne (d : Dict) (k p : Str) (v : Finset ℕ) (h : p ≠ k) :
    dictLookup (dictSet d k v) p = dictLookup d p := by
  have hk : ¬(k = p) := Ne.symm h
  induction d with
  | nil => simp [dictSet, dictLookup, hk]
  | cons kv rest ih =>
    obtain ⟨k0, v0⟩ := kv
    by_cases h0 : k0 = k
    · subst h0
      simp [dictSet, dictLookup, hk]
    · simp [dictSet, dictLookup, h0, ih]

theorem mem_dictKeys_iff_isSome (d : Dict) (p : Str) :
    p ∈ dictKeys d ↔ (dictLookup d p).isSome := by
  induction d with
  | nil => simp [dictKeys, dictLookup]
  | cons kv rest ih =>
    obtain ⟨k0, v0⟩ := kv
    rw [dictKeys_cons, List.mem_cons]
    by_cases h : k0 = p
    · subst h
      simp [dictLookup]
    · simp [dictLookup, h, Ne.symm h, ih]

theorem mapFold_lookup (final : Dict) (c : Dict) (acc : Dict) (p : Str) :
    dictLookup
      (c.foldl (fun acc kv =>
        match dictLookup final kv.1 with
        | some v => dictSet acc kv.1 v
        | none => acc) acc) p =
    if p ∈ dictKeys c ∧ (dictLookup final p).isSome then dictLookup final p
    else dictLookup acc p := by
  induction c generalizing acc with
  | nil => simp [dictKeys]
  | cons kv rest ih =>
    obtain ⟨k0, v0⟩ := kv
    rw [List.foldl_cons, ih, dictKeys_cons]
    by_cases hs : (dictLookup final p).isSome
    · simp only [hs, and_true]
      by_cases hr : p ∈ dictKeys rest
      · rw [if_pos hr, if_pos (List.mem_cons_of_mem _ hr)]
      · rw [if_neg hr]
        by_cases hk : p = k0
        · subst hk
          rw [if_pos (List.mem_cons_self _ _)]
          cases hf0 : dictLookup final p with
          | none => rw [hf0] at hs; simp at hs
          | some v =>
            simp only [hf0]
            exact dictLookup_dictSet_self acc p v
        · rw [if_neg (by simp [hk, hr])]
          cases hf0 : dictLookup final k0 with
          | none => simp only [hf0]
          | some v =>
            simp only [hf0]
            exact dictLookup_dictSet_ne acc k0 p v hk
    · rw [if_neg (fun h => hs h.2), if_neg (fun h => hs h.2)]
      cases hf0 : dictLookup final k0 with
      | none => simp only [hf0]
      | some v =>
        simp only [hf0]
        have hne : p ≠ k0 := by
          intro e
          rw [e, hf0] at hs
          exact hs rfl
        exact dictLookup_dictSet_ne acc k0 p v hne

/-- C1: the Attribution Mapper's output keys are exactly the file paths
present in both inputs, and each such path is mapped to the entire
final-diff line set for that path (no numeric intersection with the
contribution record's line set); paths present in only one input are absent
from the output. -/
theorem mapper_whole_file (claude final : Dict) (p : Str) :
    (p ∈ dictKeys (map_claude_to_final claude final) ↔
      p ∈ dictKeys claude ∧ p ∈ dictKeys final)
    ∧ dictLookup (map_claude_to_final claude final) p =
        if p ∈ dictKeys claude then dictLookup final p else none := by
  have hb : dictLookup (map_claude_to_final claude final) p =
      if p ∈ dictKeys claude ∧ (dictLookup final p).isSome then dictLookup final p
      else none := by
    unfold map_claude_to_final
    rw [mapFold_lookup]
    rfl
  constructor
  · constructor
    · intro hmem
      have hsome := (mem_dictKeys_iff_isSome _ p).1 hmem
      rw [hb] at hsome
      by_cases h : p ∈ dictKeys claude ∧ (dictLookup final p).isSome
      · exact ⟨h.1, (mem_dictKeys_iff_isSome final p).2 h.2⟩
      · rw [if_neg h] at hsome
        simp at hsome
    · intro hpf
      have hsf := (mem_dictKeys_iff_isSome final p).1 hpf.2
      rw [mem_dictKeys_iff_isSome, hb, if_pos ⟨hpf.1, hsf⟩]
      exact hsf
  · rw [hb]
    by_cases hc : p ∈ dictKeys claude
    · by_cases hsf : (dictLookup final p).isSome
      · rw [if_pos ⟨hc, hsf⟩, if_pos hc]
      · rw [if_neg (fun h => hsf h.2), if_pos hc]
        cases hl : dictLookup final p with
        | none => rfl
        | some v => rw [hl] at hsf; simp at hsf
    · rw [if_neg (fun h => hc h.1), if_neg hc]

end ClaudeLines

namespace ClaudeLines

/-! ### Diagnostic-stream and CLI-guard facts -/

/-- C2 (refuted, code bug): the Contribution Record Parser writes its
diagnostics with bare `print`, i.e. to the primary output stream, not to the
error stream: both the malformed-token warning and the missing-file error
are emitted on stdout. -/
theorem parser_diagnostics_on_stdout :
    (parse_claude_data ("claude_data.txt".toList) (some ["abc|f|x".toList])).1 =
      [(Chan.stdout, warnLineNo ("x".toList) ("f".toList))]
    ∧ (parse_claude_data ("claude_data.txt".toList) none).1 =
      [(Chan.stdout, "Error: Could not find Claude data file: claude_data.txt".toList)] := by
  exact ⟨rfl, rfl⟩

/-- C6 (refuted, code bug): a line starting with `@@` that does not match
the hunk-header pattern (no plus-digits group anywhere) is skipped without
any warning: the scan emits no message at all.  (The `Could not parse hunk
header` warning in the source is dead code: it is guarded by a successful
regex match, after which the integer conversions cannot raise.) -/
theorem malformed_hunk_silently_skipped :
    processDiffLines ["+++ b/f".toList, "@@ malformed @@".toList] =
      ([], (some ("f".toList), []))
    ∧ findPlusGroups ("@@ malformed @@".toList) = none := by
  exact ⟨rfl, rfl⟩

/-- C8: with fewer than 3 positional arguments (`len(sys.argv) < 4`,
`argv` including the program name) `main` prints the usage text to standard
output and exits with status 1; otherwise the usage branch is not taken and
execution proceeds with the three arguments. -/
theorem usage_guard (argv : List Str) :
    (argv.length < 4 → mainGuard argv =
       MainStart.usageExit (usageLines.map (fun s => (Chan.stdout, s))) 1)
    ∧ (4 ≤ argv.length → mainGuard argv =
       MainStart.proceed (argv.getD 1 []) (argv.getD 2 []) (argv.getD 3 [])) := by
  constructor
  · intro h
    unfold mainGuard
    rw [if_pos h]
  · intro h
    unfold mainGuard
    rw [if_neg (by omega)]

/-- Witness for `usage_guard` at a one-element and a four-element argument
vector. -/
theorem usage_guard_witness :
    mainGuard [("prog".toList)] =
      MainStart.usageExit (usageLines.map (fun s => (Chan.stdout, s))) 1
    ∧ mainGuard [("prog".toList), ("d.txt".toList), ("base".toList), ("head".toList)] =
      MainStart.proceed ("d.txt".toList) ("base".toList) ("head".toList) := by
  constructor
  · exact (usage_guard [("prog".toList)]).1 (by decide)
  · exact (usage_guard [("prog".toList), ("d.txt".toList), ("base".toList), ("head".toList)]).2
      (by decide)

/-- Counterexample to C4 as stated: on the attributed set
`{"a" ↦ {5}, "bc" ↦ {7}}` the note's file lines are `a:   5` and `bc:  7` —
the colon of each line sits directly after its path (columns 1 and 2), so
the colons are not column-aligned, and the short-path line is not the
left-padded form `  a: 5` the claim describes (the `ljust` padding goes to
the right of the colon, aligning the range strings instead). -/
theorem colon_alignment_cex :
    splitOnChar '\n' (generate_claude_note [("a".toList, {5}), ("bc".toList, {7})]) =
      ["claude-was-here".toList, "version: 1.0".toList, "a:   5".toList, "bc:  7".toList]
    ∧ (((splitOnChar '\n' (generate_claude_note [("a".toList, {5}), ("bc".toList, {7})])).getD 2 []).findIdx
        (fun c => c == ':') = 1)
    ∧ (((splitOnChar '\n' (generate_claude_note [("a".toList, {5}), ("bc".toList, {7})])).getD 3 []).findIdx
        (fun c => c == ':') = 2)
    ∧ ((splitOnChar '\n' (generate_claude_note [("a".toList, {5}), ("bc".toList, {7})])).getD 2 [] ≠
        List.replicate 2 ' ' ++ "a: 5".toList) := by
  refine ⟨by decide, by decide, by decide, by decide⟩

/-- Counterexample to C9 as stated: the record line `abc|f|10-` is
well-formed (three fields) and its only token yields no valid line numbers,
yet `f` is not registered: the malformed range token raises inside the
range branch before the defaultdict is subscripted, so the warning is
printed and the record stays empty. -/
theorem malformed_range_not_registered :
    (parse_claude_data ("fn".toList) (some ["abc|f|10-".toList])).2 = []
    ∧ (parse_claude_data ("fn".toList) (some ["abc|f|10-".toList])).1 =
      [(Chan.stdout, warnRange ("10-".toList) ("f".toList))]
    ∧ splitOnChar '|' (pyStrip ("abc|f|10-".toList)) =
      ["abc".toList, "f".toList, "10-".toList] := by
  exact ⟨rfl, rfl, rfl⟩

end ClaudeLines

namespace ClaudeLines

/-! ### Diff extractor: hunk processing -/

theorem dictLookup_append_single (d : Dict) (k p : Str) (v : Finset ℕ) :
    dictLookup (d ++ [(k, v)]) p =
      match dictLookup d p with
      | some w => some w
      | none => if k = p then some v else none := by
  induction d with
  | nil => simp [dictLookup]
  | cons kv rest ih =>
    obtain ⟨k0, v0⟩ := kv
    by_cases h : k0 = p
    · simp [dictLookup, h]
    · simp [dictLookup, h, ih]

theorem ddGet_eq (d : Dict) (k : Str) :
    ddGet d k = (dictGetD d k, ddEnsure d k) := by
  unfold ddGet ddEnsure dictGetD
  cases h : dictLookup d k <;> simp [ddGet, h]

theorem dictLookup_ddEnsure_self (d : Dict) (k : Str) :
    dictLookup (ddEnsure d k) k = some (dictGetD d k) := by
  unfold ddEnsure ddGet dictGetD
  cases h : dictLookup d k with
  | some v => simp [h]
  | none => simp [h, dictLookup_append_single]

theorem dictLookup_ddEnsure_ne (d : Dict) (k p : Str) (h : p ≠ k) :
    dictLookup (ddEnsure d k) p = dictLookup d p := by
  unfold ddEnsure ddGet
  cases hl : dictLookup d k with
  | some v => simp
  | none =>
    simp only [dictLookup_append_single]
    cases hp : dictLookup d p with
    | some w => simp
    | none => simp [Ne.symm h]

theorem dictGetD_dictSet_self (d : Dict) (k : Str) (v : Finset ℕ) :
    dictGetD (dictSet d k v) k = v := by
  simp [dictGetD, dictLookup_dictSet_self]

/-- One iteration of the `final_lines[current_file].add(i)` loop. -/
theorem ddAdd_step (m : Dict) (f : Str) (i : ℕ) :
    (let p := ddGet m f
     dictSet p.2 f (insert i p.1)) = dictSet (ddEnsure m f) f (insert i (dictGetD m f)) := by
  rw [ddGet_eq]

theorem dictGetD_ddAdd (m : Dict) (f : Str) (i : ℕ) :
    dictGetD (dictSet (ddEnsure m f) f (insert i (dictGetD m f))) f =
      insert i (dictGetD m f) :=
  dictGetD_dictSet_self _ _ _

theorem dictLookup_ddAdd_ne (m : Dict) (f p : Str) (i : ℕ) (h : p ≠ f) :
    dictLookup (dictSet (ddEnsure m f) f (insert i (dictGetD m f))) p = dictLookup m p := by
  rw [dictLookup_dictSet_ne _ _ _ _ h, dictLookup_ddEnsure_ne _ _ _ h]

theorem addLines_zero (m : Dict) (f : Str) (s : ℕ) : addLines m f s 0 = m := rfl

theorem addLines_succ (m : Dict) (f : Str) (s c : ℕ) :
    addLines m f s (c + 1) =
      addLines (dictSet (ddEnsure m f) f (insert s (dictGetD m f))) f (s + 1) c := by
  unfold addLines
  rw [List.range'_succ, List.foldl_cons, ddGet_eq]

theorem addLines_getD (m : Dict) (f : Str) (s c : ℕ) :
    dictGetD (addLines m f s c) f = dictGetD m f ∪ Finset.Ico s (s + c) := by
  induction c generalizing s m with
  | zero => simp [addLines_zero]
  | succ c ih =>
    rw [addLines_succ, ih, dictGetD_dictSet_self]
    ext x
    simp only [Finset.mem_union, Finset.mem_Ico, Finset.mem_insert]
    by_cases hx : x ∈ dictGetD m f
    · simp [hx]
    · simp only [hx, or_false, false_or]
      omega

theorem addLines_lookup_ne (m : Dict) (f p : Str) (s c : ℕ) (h : p ≠ f) :
    dictLookup (addLines m f s c) p = dictLookup m p := by
  induction c generalizing s m with
  | zero => rw [addLines_zero]
  | succ c ih =>
    rw [addLines_succ, ih, dictLookup_ddAdd_ne _ _ _ _ h]

theorem atat_not_ppp (line : Str) (h : ("@@".toList).isPrefixOf line = true) :
    ("+++".toList).isPrefixOf line = false := by
  cases line with
  | nil => exact absurd h (by decide)
  | cons c cs =>
    have hc : '@' = c := by
      simp only [List.isPrefixOf, Bool.and_eq_true, beq_iff_eq] at h
      exact h.1
    subst hc
    have hb : ('+' == '@') = false := rfl
    simp [List.isPrefixOf, hb]

/-- Reduction of `diffStep` on a hunk-header line whose regex search
matches, with a current file in place. -/
theorem diffStep_hunk (f : Str) (m : Dict) (msgs : List Msg) (line g1 : Str)
    (g2 : Option Str) (s c : ℕ)
    (hat : ("@@".toList).isPrefixOf line = true)
    (hfind : findPlusGroups line = some (g1, g2))
    (hs : pyInt? g1 = some s)
    (hc : optCount g2 = some c) :
    diffStep (msgs, (some f, m)) line = (msgs, (some f, addLines m f s c)) := by
  unfold diffStep
  simp only [atat_not_ppp line hat, hat, hfind, hs, hc, Bool.false_eq_true, if_false, if_true]

/-- C5: on a diff-output line beginning with `@@` while a current file is
established, whose plus-group search matches with new-side start `s` and
count `c` (the `+` group only; the count defaulting to 1 when the comma
group is absent, per `optCount`), the extractor adds exactly the integers of
the half-open interval `[s, s + c)` to the entry of the current file and
changes nothing else. -/
theorem hunk_header_adds_interval (f : Str) (m : Dict) (msgs : List Msg)
    (line g1 : Str) (g2 : Option Str) (s c : ℕ)
    (hat : ("@@".toList).isPrefixOf line = true)
    (hfind : findPlusGroups line = some (g1, g2))
    (hs : pyInt? g1 = some s)
    (hc : optCount g2 = some c) :
    diffStep (msgs, (some f, m)) line = (msgs, (some f, addLines m f s c))
    ∧ dictGetD (addLines m f s c) f = dictGetD m f ∪ Finset.Ico s (s + c)
    ∧ ∀ p, p ≠ f → dictLookup (addLines m f s c) p = dictLookup m p :=
  ⟨diffStep_hunk f m msgs line g1 g2 s c hat hfind hs hc,
   addLines_getD m f s c,
   fun p hp => addLines_lookup_ne m f p s c hp⟩

/-- Witness for `hunk_header_adds_interval`: the spec's own example, header
`+++ b/src/foo.py` followed by `@@ -1,2 +10,3 @@`, which contributes exactly
lines 10, 11, 12. -/
theorem hunk_header_adds_interval_witness :
    diffStep ([], (some ("src/foo.py".toList), [])) ("@@ -1,2 +10,3 @@".toList) =
      ([], (some ("src/foo.py".toList), addLines [] ("src/foo.py".toList) 10 3))
    ∧ dictGetD (addLines [] ("src/foo.py".toList) 10 3) ("src/foo.py".toList) =
        dictGetD ([] : Dict) ("src/foo.py".toList) ∪ Finset.Ico 10 (10 + 3) := by
  have h := hunk_header_adds_interval ("src/foo.py".toList) [] [] ("@@ -1,2 +10,3 @@".toList)
    ("10".toList) (some ("3".toList)) 10 3 (by decide) (by decide) (by decide) (by decide)
  exact ⟨h.1, h.2.1⟩

/-- C10: a hunk header whose new-side count is explicitly 0 leaves the
whole scanning state unchanged (in particular the current file's key is not
even created), and any path absent from the DiffLineSet is absent from the
Attribution Mapper's output even when present in the ContributionRecord. -/
theorem zero_count_hunk_excluded :
    (∀ (f line g1 g2 : Str) (m : Dict) (msgs : List Msg) (s : ℕ),
      ("@@".toList).isPrefixOf line = true →
      findPlusGroups line = some (g1, some g2) →
      pyInt? g1 = some s →
      pyInt? g2 = some 0 →
      diffStep (msgs, (some f, m)) line = (msgs, (some f, m)))
    ∧ (∀ (claude final_lines : Dict) (p : Str),
      dictLookup final_lines p = none →
      dictLookup (map_claude_to_final claude final_lines) p = none) := by
  constructor
  · intro f line g1 g2 m msgs s hat hfind hs hz
    have h := diffStep_hunk f m msgs line g1 (some g2) s 0 hat hfind hs (by simp [optCount, hz])
    rw [addLines_zero] at h
    exact h
  · intro claude final_lines p h
    unfold map_claude_to_final
    rw [mapFold_lookup]
    simp [h, dictLookup]

/-- Witness for `zero_count_hunk_excluded`: the pure-deletion header
`@@ -3,2 +5,0 @@` leaves the state untouched, and a file present only in
the ContributionRecord is absent from the mapper's output. -/
theorem zero_count_hunk_excluded_witness :
    diffStep ([], (some ("f".toList), [("g".toList, {1})])) ("@@ -3,2 +5,0 @@".toList) =
      ([], (some ("f".toList), [("g".toList, {1})]))
    ∧ dictLookup (map_claude_to_final [("f".toList, {1, 2})] []) ("f".toList) = none := by
  constructor
  · exact zero_count_hunk_excluded.1 ("f".toList) ("@@ -3,2 +5,0 @@".toList)
      ("5".toList) ("0".toList) [("g".toList, {1})] [] 5
      (by decide) (by decide) (by decide) (by decide)
  · exact zero_count_hunk_excluded.2 [("f".toList, {1, 2})] [] ("f".toList) rfl

end ClaudeLines

namespace ClaudeLines

/-! ### Decimal rendering and parsing lemmas -/

theorem natDigitsAux_zero (fuel : ℕ) : natDigitsAux fuel 0 = [] := by
  cases fuel <;> rfl

theorem digitsVal_append_singleton (ds : Str) (c : Char) :
    digitsVal (ds ++ [c]) = 10 * digitsVal ds + (c.toNat - 48) := by
  unfold digitsVal
  rw [List.foldl_append]
  rfl

theorem digit_char_facts (r : ℕ) (hr : r < 10) :
    (Char.ofNat (48 + r)).toNat = 48 + r ∧ isDigitC (Char.ofNat (48 + r)) = true := by
  interval_cases r <;> exact ⟨rfl, rfl⟩

theorem natDigitsAux_spec (fuel : ℕ) :
    ∀ n, 0 < n → n ≤ fuel →
      digitsVal (natDigitsAux fuel n) = n
      ∧ natDigitsAux fuel n ≠ []
      ∧ ∀ c ∈ natDigitsAux fuel n, isDigitC c = true := by
  induction fuel with
  | zero => intro n h0 hle; omega
  | succ fuel ih =>
    intro n h0 hle
    obtain ⟨m, rfl⟩ : ∃ m, n = m + 1 := ⟨n - 1, by omega⟩
    have hrec : natDigitsAux (fuel + 1) (m + 1) =
        natDigitsAux fuel ((m + 1) / 10) ++ [Char.ofNat (48 + (m + 1) % 10)] := rfl
    have hr : (m + 1) % 10 < 10 := Nat.mod_lt _ (by norm_num)
    obtain ⟨hc1, hc2⟩ := digit_char_facts ((m + 1) % 10) hr
    by_cases hq : (m + 1) / 10 = 0
    · rw [hrec, hq, natDigitsAux_zero, List.nil_append]
      refine ⟨?_, by simp, ?_⟩
      · rw [show digitsVal [Char.ofNat (48 + (m + 1) % 10)] =
            0 + ((Char.ofNat (48 + (m + 1) % 10)).toNat - 48) from rfl, hc1]
        omega
      · intro c hcm
        rw [List.mem_singleton] at hcm
        rw [hcm]
        exact hc2
    · have hqle : (m + 1) / 10 ≤ fuel := by
        have := Nat.div_lt_self (show 0 < m + 1 by omega) (show 1 < 10 by norm_num)
        omega
      obtain ⟨ihv, ihne, ihd⟩ := ih ((m + 1) / 10) (by omega) hqle
      rw [hrec]
      refine ⟨?_, by simp, ?_⟩
      · rw [digitsVal_append_singleton, ihv, hc1]
        omega
      · intro c hcm
        rw [List.mem_append] at hcm
        rcases hcm with hcm | hcm
        · exact ihd c hcm
        · rw [List.mem_singleton] at hcm
          rw [hcm]
          exact hc2

theorem natDigits_all_digits (n : ℕ) : ∀ c ∈ natDigits n, isDigitC c = true := by
  by_cases h : n = 0
  · subst h
    intro c hc
    have h0 : natDigits 0 = ['0'] := rfl
    rw [h0, List.mem_singleton] at hc
    rw [hc]
    rfl
  · unfold natDigits
    rw [if_neg h]
    exact (natDigitsAux_spec n n (by omega) le_rfl).2.2

theorem natDigits_ne_nil (n : ℕ) : natDigits n ≠ [] := by
  unfold natDigits
  by_cases h : n = 0
  · simp [h]
  · rw [if_neg h]
    exact (natDigitsAux_spec n n (by omega) le_rfl).2.1

theorem isDigitC_not_space (c : Char) (h : isDigitC c = true) : isSpace c = false := by
  cases hsp : isSpace c with
  | false => rfl
  | true =>
    simp only [isSpace, Bool.or_eq_true, beq_iff_eq] at hsp
    rcases hsp with ((rfl | rfl) | rfl) | rfl <;> exact absurd h (by decide)

theorem isDigitC_not_special (c : Char) (h : isDigitC c = true) :
    c ≠ '-' ∧ c ≠ ',' ∧ c ≠ '|' ∧ c ≠ '\n' := by
  refine ⟨?_, ?_, ?_, ?_⟩ <;> intro e <;> rw [e] at h <;> exact absurd h (by decide)

theorem dropWhile_of_head_false {p : Char → Bool} :
    ∀ cs : Str, (∀ c ∈ cs, p c = false) → cs.dropWhile p = cs := by
  intro cs h
  cases cs with
  | nil => rfl
  | cons c rest =>
    rw [List.dropWhile_cons, h c (List.mem_cons_self c rest)]
    simp

theorem pyStrip_of_no_space (cs : Str) (h : ∀ c ∈ cs, isSpace c = false) :
    pyStrip cs = cs := by
  unfold pyStrip
  rw [dropWhile_of_head_false cs h,
      dropWhile_of_head_false cs.reverse (fun c hc => h c (List.mem_reverse.1 hc)),
      List.reverse_reverse]

theorem pyStrip_natDigits (n : ℕ) : pyStrip (natDigits n) = natDigits n :=
  pyStrip_of_no_space _ (fun c hc => isDigitC_not_space c (natDigits_all_digits n c hc))

/-- Parsing inverts rendering: `int(str(n)) = n`. -/
theorem pyInt_natDigits (n : ℕ) : pyInt? (natDigits n) = some n := by
  have h1 : pyInt? (natDigits n) =
      if natDigits n = [] then none
      else if (natDigits n).all isDigitC then some (digitsVal (natDigits n)) else none := by
    unfold pyInt?
    rw [pyStrip_natDigits]
  rw [h1, if_neg (natDigits_ne_nil n),
      if_pos (List.all_eq_true.2 (natDigits_all_digits n))]
  congr 1
  by_cases h : n = 0
  · subst h
    rfl
  · unfold natDigits
    rw [if_neg h]
    exact (natDigitsAux_spec n n (by omega) le_rfl).1

end ClaudeLines

namespace ClaudeLines

/-! ### Split/join inversion -/

theorem splitOnChar_ne_nil (sep : Char) (cs : Str) : splitOnChar sep cs ≠ [] := by
  cases cs with
  | nil => simp [splitOnChar]
  | cons c cs =>
    unfold splitOnChar
    by_cases h : c = sep
    · simp [h]
    · rw [if_neg h]
      cases splitOnChar sep cs <;> simp

theorem splitOnChar_no_sep (sep : Char) (t : Str) (h : sep ∉ t) :
    splitOnChar sep t = [t] := by
  induction t with
  | nil => rfl
  | cons c cs ih =>
    have hcs : sep ∉ cs := fun m => h (List.mem_cons_of_mem c m)
    have hc : ¬(c = sep) := by
      intro e
      apply h
      rw [e]
      exact List.mem_cons_self sep cs
    unfold splitOnChar
    rw [if_neg hc, ih hcs]

theorem splitOnChar_append (sep : Char) (t rest : Str) (h : sep ∉ t) :
    splitOnChar sep (t ++ sep :: rest) = t :: splitOnChar sep rest := by
  induction t with
  | nil =>
    show splitOnChar sep (sep :: rest) = [] :: splitOnChar sep rest
    simp only [splitOnChar]
    simp
  | cons c cs ih =>
    have hcs : sep ∉ cs := fun m => h (List.mem_cons_of_mem c m)
    have hc : ¬(c = sep) := by
      intro e
      apply h
      rw [e]
      exact List.mem_cons_self sep cs
    show splitOnChar sep (c :: (cs ++ sep :: rest)) = (c :: cs) :: splitOnChar sep rest
    simp only [splitOnChar]
    rw [if_neg hc, ih hcs]

theorem splitOnChar_joinSep (sep : Char) (ts : List Str) (hne : ts ≠ [])
    (h : ∀ t ∈ ts, sep ∉ t) : splitOnChar sep (joinSep sep ts) = ts := by
  induction ts with
  | nil => exact absurd rfl hne
  | cons t ts ih =>
    cases ts with
    | nil => exact splitOnChar_no_sep sep t (h t (List.mem_cons_self t []))
    | cons t2 rest =>
      have hj : joinSep sep (t :: t2 :: rest) = t ++ sep :: joinSep sep (t2 :: rest) := rfl
      rw [hj, splitOnChar_append sep t _ (h t (List.mem_cons_self t (t2 :: rest))),
          ih (by simp) (fun u hu => h u (List.mem_cons_of_mem t hu))]

/-! ### Token-step characterization -/

theorem dictSet_lookup_self (d : Dict) (k : Str) (v : Finset ℕ)
    (h : dictLookup d k = some v) : dictSet d k v = d := by
  induction d with
  | nil => simp [dictLookup] at h
  | cons kv rest ih =>
    obtain ⟨k0, v0⟩ := kv
    by_cases h0 : k0 = k
    · subst h0
      unfold dictLookup at h
      rw [if_pos rfl] at h
      obtain rfl : v0 = v := Option.some.inj h
      unfold dictSet
      rw [if_pos rfl]
    · unfold dictLookup at h
      rw [if_neg h0] at h
      unfold dictSet
      rw [if_neg h0, ih h]

theorem tokenStep_snd (fp : Str) (acc : List Msg × Dict) (tok : Str) :
    (tokenStep fp acc tok).2 =
      if tokenRegisters (pyStrip tok) = true then
        dictSet (ddEnsure acc.2 fp) fp (dictGetD acc.2 fp ∪ tokenNums (pyStrip tok))
      else acc.2 := by
  by_cases hd : '-' ∈ pyStrip tok
  · cases hsp : splitOnChar '-' (pyStrip tok) with
    | nil => exact absurd hsp (splitOnChar_ne_nil '-' (pyStrip tok))
    | cons a l1 =>
      cases l1 with
      | nil => simp [tokenStep, tokenRegisters, tokenNums, hd, hsp]
      | cons b l2 =>
        cases l2 with
        | nil =>
          cases hpa : pyInt? a with
          | none => simp [tokenStep, tokenRegisters, tokenNums, hd, hsp, hpa]
          | some s =>
            cases hpb : pyInt? b with
            | none => simp [tokenStep, tokenRegisters, tokenNums, hd, hsp, hpa, hpb]
            | some e =>
              simp [tokenStep, tokenRegisters, tokenNums, hd, hsp, hpa, hpb, ddGet_eq]
        | cons c l3 => simp [tokenStep, tokenRegisters, tokenNums, hd, hsp]
  · cases hp : pyInt? (pyStrip tok) with
    | some n =>
      have hins : insert n (dictGetD acc.2 fp) = dictGetD acc.2 fp ∪ {n} := by
        ext x
        simp only [Finset.mem_insert, Finset.mem_union, Finset.mem_singleton]
        tauto
      simp [tokenStep, tokenRegisters, tokenNums, hd, hp, ddGet_eq, hins]
    | none =>
      have hset : dictSet (ddEnsure acc.2 fp) fp (dictGetD acc.2 fp) = ddEnsure acc.2 fp :=
        dictSet_lookup_self _ _ _ (dictLookup_ddEnsure_self acc.2 fp)
      simp [tokenStep, tokenRegisters, tokenNums, hd, hp, ddGet_eq, hset]

theorem tokenNums_of_not_registers (t : Str) (h : tokenRegisters t = false) :
    tokenNums t = ∅ := by
  unfold tokenRegisters at h
  unfold tokenNums
  by_cases hd : '-' ∈ t
  · rw [if_pos hd] at h
    rw [if_pos hd]
    cases hsp : splitOnChar '-' t with
    | nil => exact absurd hsp (splitOnChar_ne_nil '-' t)
    | cons a l1 =>
      cases l1 with
      | nil => simp [hsp]
      | cons b l2 =>
        cases l2 with
        | nil =>
          rw [hsp] at h
          cases hpa : pyInt? a with
          | none => simp [hsp, hpa]
          | some s =>
            cases hpb : pyInt? b with
            | none => simp [hsp, hpa, hpb]
            | some e => simp [hpa, hpb] at h
        | cons c l3 => simp [hsp]
  · rw [if_neg hd] at h
    simp at h

theorem foldl_tokenStep_getD (fp : Str) (ts : List Str) (acc : List Msg × Dict) :
    dictGetD ((ts.foldl (tokenStep fp) acc).2) fp =
      ts.foldl (fun s t => s ∪ tokenNums (pyStrip t)) (dictGetD acc.2 fp) := by
  induction ts generalizing acc with
  | nil => rfl
  | cons t ts ih =>
    rw [List.foldl_cons, List.foldl_cons, ih]
    congr 1
    rw [tokenStep_snd]
    by_cases hr : tokenRegisters (pyStrip t) = true
    · rw [if_pos hr, dictGetD_dictSet_self]
    · rw [if_neg hr, tokenNums_of_not_registers _ (Bool.not_eq_true _ ▸ hr : tokenRegisters (pyStrip t) = false)]
      rw [Finset.union_empty]

end ClaudeLines

namespace ClaudeLines

/-! ### Range rendering and the round trip -/

theorem renderRange_chars (p : ℕ × ℕ) :
    ∀ c ∈ renderRange p, isDigitC c = true ∨ c = '-' := by
  intro c hc
  unfold renderRange at hc
  by_cases h : p.1 = p.2
  · rw [if_pos h] at hc
    exact Or.inl (natDigits_all_digits _ c hc)
  · rw [if_neg h] at hc
    rcases List.mem_append.1 hc with hm | hm
    · exact Or.inl (natDigits_all_digits _ c hm)
    · rcases List.mem_cons.1 hm with rfl | hm
      · exact Or.inr rfl
      · exact Or.inl (natDigits_all_digits _ c hm)

theorem renderRange_no_comma (p : ℕ × ℕ) : ',' ∉ renderRange p := by
  intro hm
  rcases renderRange_chars p ',' hm with hd | he
  · exact (isDigitC_not_special _ hd).2.1 rfl
  · exact absurd he (by decide)

theorem pyStrip_renderRange (p : ℕ × ℕ) : pyStrip (renderRange p) = renderRange p := by
  apply pyStrip_of_no_space
  intro c hc
  rcases renderRange_chars p c hc with hd | he
  · exact isDigitC_not_space c hd
  · rw [he]
    rfl

theorem dash_not_in_natDigits (n : ℕ) : '-' ∉ natDigits n := fun hm =>
  (isDigitC_not_special _ (natDigits_all_digits n _ hm)).1 rfl

theorem tokenNums_renderRange (p : ℕ × ℕ) :
    tokenNums (renderRange p) = Finset.Icc p.1 p.2 := by
  unfold tokenNums renderRange
  by_cases h : p.1 = p.2
  · rw [if_pos h, if_neg (dash_not_in_natDigits p.1)]
    simp only [pyInt_natDigits]
    rw [← h, Finset.Icc_self]
  · rw [if_neg h,
        if_pos (List.mem_append.2 (Or.inr (List.mem_cons_self '-' (natDigits p.2)))),
        splitOnChar_append '-' _ _ (dash_not_in_natDigits p.1),
        splitOnChar_no_sep '-' _ (dash_not_in_natDigits p.2)]
    simp only [pyInt_natDigits]

theorem rangesGo_ne_nil (start e : ℕ) (xs : List ℕ) : rangesGo start e xs ≠ [] := by
  induction xs generalizing start e with
  | nil => simp [rangesGo]
  | cons x xs ih =>
    unfold rangesGo
    by_cases h : x = e + 1
    · rw [if_pos h]
      exact ih start x
    · rw [if_neg h]
      simp

theorem rangesGo_fold (xs : List ℕ) : ∀ (start e : ℕ) (A : Finset ℕ),
    start ≤ e → List.Sorted (· ≤ ·) xs → (∀ x ∈ xs, e ≤ x) →
    (rangesGo start e xs).foldl (fun s p => s ∪ Finset.Icc p.1 p.2) A =
      A ∪ Finset.Icc start e ∪ xs.toFinset := by
  induction xs with
  | nil =>
    intro start e A hse _ _
    simp [rangesGo]
  | cons x xs ih =>
    intro start e A hse hs hall
    obtain ⟨hx, hs'⟩ := List.sorted_cons.1 hs
    have hex : e ≤ x := hall x (List.mem_cons_self x xs)
    unfold rangesGo
    by_cases h : x = e + 1
    · rw [if_pos h, ih start x A (by omega) hs' hx]
      subst h
      ext y
      simp only [Finset.mem_union, Finset.mem_Icc, List.toFinset_cons, Finset.mem_insert]
      by_cases hyA : y ∈ A
      · simp [hyA]
      · by_cases hyT : y ∈ xs.toFinset
        · simp [hyA, hyT]
        · simp only [hyA, hyT, false_or, or_false]
          omega
    · rw [if_neg h, List.foldl_cons, ih x x (A ∪ Finset.Icc start e) le_rfl hs' hx]
      ext y
      simp only [Finset.mem_union, Finset.mem_Icc, List.toFinset_cons, Finset.mem_insert]
      by_cases hyA : y ∈ A
      · simp [hyA]
      · by_cases hyT : y ∈ xs.toFinset
        · simp [hyA, hyT]
        · simp only [hyA, hyT, false_or, or_false]
          omega

theorem sortNat_sorted (l : List ℕ) : List.Sorted (· ≤ ·) (sortNat l) :=
  List.sorted_insertionSort (· ≤ ·) l

theorem sortNat_perm (l : List ℕ) : List.Perm (sortNat l) l :=
  List.perm_insertionSort (· ≤ ·) l

theorem perm_toFinset {l1 l2 : List ℕ} (h : List.Perm l1 l2) :
    l1.toFinset = l2.toFinset := by
  ext x
  simp [List.mem_toFinset, h.mem_iff]

theorem convert_tokens (x : ℕ) (xs : List ℕ) :
    splitOnChar ',' (joinSep ',' ((rangesGo x x xs).map renderRange)) =
      (rangesGo x x xs).map renderRange := by
  apply splitOnChar_joinSep
  · intro e
    exact rangesGo_ne_nil x x xs (List.map_eq_nil_iff.1 e)
  · intro t ht
    rcases List.mem_map.1 ht with ⟨p, _, rfl⟩
    exact renderRange_no_comma p

theorem processRanges_convert (l : List ℕ) (fp : Str) (acc : List Msg × Dict) :
    dictGetD ((processRangesField fp (convert_lines_to_ranges l) acc).2) fp =
      dictGetD acc.2 fp ∪ l.toFinset := by
  unfold processRangesField convert_lines_to_ranges
  cases hsort : sortNat l with
  | nil =>
    have hl : l = [] := by
      have hp : List.Perm l (sortNat l) := (sortNat_perm l).symm
      rw [hsort] at hp
      exact List.Perm.eq_nil hp
    subst hl
    rw [show splitOnChar ',' ([] : Str) = [[]] from rfl, foldl_tokenStep_getD]
    simp [show tokenNums (pyStrip ([] : Str)) = ∅ from rfl]
  | cons x xs =>
    rw [convert_tokens x xs, foldl_tokenStep_getD, List.foldl_map]
    have hfeq : (fun (s : Finset ℕ) (p : ℕ × ℕ) => s ∪ tokenNums (pyStrip (renderRange p))) =
        fun (s : Finset ℕ) (p : ℕ × ℕ) => s ∪ Finset.Icc p.1 p.2 := by
      funext s p
      rw [pyStrip_renderRange, tokenNums_renderRange]
    rw [hfeq]
    have hsorted := sortNat_sorted l
    rw [hsort] at hsorted
    obtain ⟨hall, hs'⟩ := List.sorted_cons.1 hsorted
    rw [rangesGo_fold xs x x _ le_rfl hs' hall]
    have hfin : l.toFinset = (x :: xs).toFinset := by
      rw [← hsort]
      exact (perm_toFinset (sortNat_perm l)).symm
    rw [hfin]
    ext y
    simp only [Finset.mem_union, Finset.mem_Icc, List.toFinset_cons, Finset.mem_insert]
    by_cases hyA : y ∈ dictGetD acc.2 fp
    · simp [hyA]
    · by_cases hyT : y ∈ xs.toFinset
      · simp [hyA, hyT]
      · simp only [hyA, hyT, false_or, or_false]
        omega

theorem finsetAsc_toFinset (S : Finset ℕ) : (finsetAsc S).toFinset = S := by
  ext x
  simp only [finsetAsc, List.mem_toFinset, List.mem_filter, List.mem_range,
    decide_eq_true_eq]
  constructor
  · rintro ⟨_, hx⟩
    exact hx
  · intro hx
    refine ⟨?_, hx⟩
    have h2 : id x ≤ S.sup id := Finset.le_sup hx
    simp only [id] at h2
    omega

/-- C3: converting any finite set of line numbers to range notation and
re-parsing the produced comma-separated tokens with the contribution
parser's own token loop reproduces exactly the original set — stated both
for an arbitrary list enumeration and for a `Finset` through its
enumeration. -/
theorem ranges_roundtrip :
    (∀ (l : List ℕ) (fp : Str),
      dictGetD ((processRangesField fp (convert_lines_to_ranges l) ([], [])).2) fp =
        l.toFinset)
    ∧ ∀ (S : Finset ℕ) (fp : Str),
      dictGetD ((processRangesField fp (convert_lines_to_ranges (finsetAsc S)) ([], [])).2) fp =
        S := by
  have h1 : ∀ (l : List ℕ) (fp : Str),
      dictGetD ((processRangesField fp (convert_lines_to_ranges l) ([], [])).2) fp =
        l.toFinset := by
    intro l fp
    rw [processRanges_convert]
    simp [dictGetD, dictLookup]
  exact ⟨h1, fun S fp => by rw [h1 (finsetAsc S) fp, finsetAsc_toFinset]⟩

end ClaudeLines

namespace ClaudeLines

/-! ### Record lines whose tokens register the key with an empty set -/

theorem foldl_tokenStep_single (fp : Str) (ts : List Str)
    (h : ∀ t ∈ ts, tokenRegisters (pyStrip t) = true) :
    ∀ (acc : List Msg × Dict) (X : Finset ℕ), acc.2 = [(fp, X)] →
    (ts.foldl (tokenStep fp) acc).2 =
      [(fp, ts.foldl (fun s t => s ∪ tokenNums (pyStrip t)) X)] := by
  induction ts with
  | nil =>
    intro acc X hX
    simpa using hX
  | cons t ts ih =>
    intro acc X hX
    rw [List.foldl_cons, List.foldl_cons]
    apply ih (fun u hu => h u (List.mem_cons_of_mem t hu))
    rw [tokenStep_snd, if_pos (h t (List.mem_cons_self t ts)), hX]
    simp [ddEnsure, ddGet, dictLookup, dictGetD, dictSet]

theorem foldl_union_empty (ts : List Str)
    (h : ∀ t ∈ ts, tokenNums (pyStrip t) = ∅) (X : Finset ℕ) :
    ts.foldl (fun s t => s ∪ tokenNums (pyStrip t)) X = X := by
  induction ts generalizing X with
  | nil => rfl
  | cons t ts ih =>
    rw [List.foldl_cons, h t (List.mem_cons_self t ts), Finset.union_empty]
    exact ih (fun u hu => h u (List.mem_cons_of_mem t hu)) X

/-- C9 (amended): for a well-formed three-field record line whose stripped
tokens all register the key (each token either has no dash, or is a
two-part numeric range — e.g. the inverted `20-10`) and all yield no line
numbers, the parser still registers the file path mapped to the empty set;
since the Attribution Mapper tests key presence only, such a file still
receives the entire DiffLineSet value for that path. -/
theorem empty_contribution_still_attributed
    (fn commit fp ranges line : Str) (ts : List Str)
    (hsplit : splitOnChar '|' (pyStrip line) = [commit, fp, ranges])
    (htok : splitOnChar ',' ranges = ts)
    (hreg : ∀ t ∈ ts, tokenRegisters (pyStrip t) = true)
    (hnums : ∀ t ∈ ts, tokenNums (pyStrip t) = ∅) :
    (parse_claude_data fn (some [line])).2 = [(fp, ∅)]
    ∧ ∀ (final_lines : Dict) (v : Finset ℕ),
        dictLookup final_lines fp = some v →
        dictLookup
          (map_claude_to_final (parse_claude_data fn (some [line])).2 final_lines) fp =
          some v := by
  have hdict : (parse_claude_data fn (some [line])).2 = [(fp, ∅)] := by
    show (List.foldl lineStep ([], []) [line]).2 = [(fp, ∅)]
    rw [List.foldl_cons, List.foldl_nil]
    show (lineStep ([], []) line).2 = [(fp, ∅)]
    unfold lineStep
    rw [hsplit]
    show ((splitOnChar ',' ranges).foldl (tokenStep fp) ([], [])).2 = [(fp, ∅)]
    rw [htok]
    cases ts with
    | nil => exact absurd htok (splitOnChar_ne_nil ',' ranges)
    | cons t ts' =>
      rw [List.foldl_cons]
      have h1 : (tokenStep fp ([], []) t).2 = [(fp, tokenNums (pyStrip t))] := by
        rw [tokenStep_snd, if_pos (hreg t (List.mem_cons_self t ts'))]
        simp [ddEnsure, ddGet, dictLookup, dictGetD, dictSet]
      rw [foldl_tokenStep_single fp ts'
            (fun u hu => hreg u (List.mem_cons_of_mem t hu))
            (tokenStep fp ([], []) t) (tokenNums (pyStrip t)) h1,
          hnums t (List.mem_cons_self t ts'),
          foldl_union_empty ts' (fun u hu => hnums u (List.mem_cons_of_mem t hu)) ∅]
  refine ⟨hdict, fun final_lines v hv => ?_⟩
  rw [hdict]
  unfold map_claude_to_final
  rw [mapFold_lookup, if_pos ⟨by simp [dictKeys], by rw [hv]; rfl⟩]
  exact hv

/-- Witness for `empty_contribution_still_attributed`: the record line
`abc|f|20-10` (inverted range, empty interval) registers `f` with the empty
set, and `f` then receives the whole final-diff set `{1, 2}`. -/
theorem empty_contribution_still_attributed_witness :
    (parse_claude_data ("fn".toList) (some ["abc|f|20-10".toList])).2 = [("f".toList, ∅)]
    ∧ dictLookup
        (map_claude_to_final
          (parse_claude_data ("fn".toList) (some ["abc|f|20-10".toList])).2
          [("f".toList, {1, 2})]) ("f".toList) = some {1, 2} := by
  have h := empty_contribution_still_attributed ("fn".toList) ("abc".toList) ("f".toList)
    ("20-10".toList) ("abc|f|20-10".toList) ["20-10".toList]
    (by decide) (by decide) (by decide) (by decide)
  exact ⟨h.1, h.2 [("f".toList, {1, 2})] {1, 2} rfl⟩

end ClaudeLines

namespace ClaudeLines

/-! ### Note generation: layout, alignment, sortedness, omission -/

theorem strLeB_total (a b : Str) : strLeB a b = true ∨ strLeB b a = true := by
  induction a generalizing b with
  | nil => exact Or.inl rfl
  | cons c as ih =>
    cases b with
    | nil => exact Or.inr rfl
    | cons d bs =>
      rcases Nat.lt_trichotomy c.toNat d.toNat with h | h | h
      · left
        unfold strLeB
        rw [if_pos h]
      · have h1 : ¬ c.toNat < d.toNat := by omega
        have h2 : ¬ d.toNat < c.toNat := by omega
        rcases ih bs with hl | hr
        · left
          unfold strLeB
          rw [if_neg h1, if_neg h2]
          exact hl
        · right
          unfold strLeB
          rw [if_neg h2, if_neg h1]
          exact hr
      · right
        unfold strLeB
        rw [if_pos h]

theorem strLeB_trans (a b c : Str) (h1 : strLeB a b = true) (h2 : strLeB b c = true) :
    strLeB a c = true := by
  induction a generalizing b c with
  | nil => rfl
  | cons x as ih =>
    cases b with
    | nil => exact absurd h1 (by simp [strLeB])
    | cons y bs =>
      cases c with
      | nil => exact absurd h2 (by simp [strLeB])
      | cons z cs =>
        unfold strLeB at h1 h2 ⊢
        by_cases hxy : x.toNat < y.toNat
        · by_cases hyz : y.toNat < z.toNat
          · rw [if_pos (show x.toNat < z.toNat by omega)]
          · by_cases hzy : z.toNat < y.toNat
            · rw [if_neg hyz, if_pos hzy] at h2
              exact absurd h2 (by simp)
            · rw [if_pos (show x.toNat < z.toNat by omega)]
        · by_cases hyx : y.toNat < x.toNat
          · rw [if_neg hxy, if_pos hyx] at h1
            exact absurd h1 (by simp)
          · rw [if_neg hxy, if_neg hyx] at h1
            by_cases hyz : y.toNat < z.toNat
            · rw [if_pos (show x.toNat < z.toNat by omega)]
            · by_cases hzy : z.toNat < y.toNat
              · rw [if_neg hyz, if_pos hzy] at h2
                exact absurd h2 (by simp)
              · rw [if_neg hyz, if_neg hzy] at h2
                rw [if_neg (show ¬ x.toNat < z.toNat by omega),
                    if_neg (show ¬ z.toNat < x.toNat by omega)]
                exact ih bs cs h1 h2

instance : IsTotal Str (fun a b => strLeB a b = true) := ⟨strLeB_total⟩

instance : IsTrans Str (fun a b => strLeB a b = true) := ⟨strLeB_trans⟩

theorem le_foldl_max (l : List Str) : ∀ (a : ℕ),
    a ≤ l.foldl (fun acc s => max acc s.length) a
    ∧ ∀ x ∈ l, x.length ≤ l.foldl (fun acc s => max acc s.length) a := by
  induction l with
  | nil =>
    intro a
    exact ⟨le_rfl, fun x hx => absurd hx (List.not_mem_nil x)⟩
  | cons s l ih =>
    intro a
    rw [List.foldl_cons]
    obtain ⟨h1, h2⟩ := ih (max a s.length)
    refine ⟨le_trans (le_max_left a s.length) h1, fun x hx => ?_⟩
    rcases List.mem_cons.1 hx with rfl | hx
    · exact le_trans (le_max_right a x.length) h1
    · exact h2 x hx

theorem length_le_maxKeyLen (d : Dict) (fp : Str) (h : fp ∈ dictKeys d) :
    fp.length ≤ maxKeyLen d :=
  (le_foldl_max (dictKeys d) 0).2 fp h

theorem pyLjust_length (cs : Str) (w : ℕ) (h : cs.length ≤ w) :
    (pyLjust cs w).length = w := by
  unfold pyLjust
  rw [List.length_append, List.length_replicate]
  omega

theorem mem_joinSep (sep : Char) (ts : List Str) (c : Char) (h : c ∈ joinSep sep ts) :
    c = sep ∨ ∃ t ∈ ts, c ∈ t := by
  induction ts with
  | nil => exact absurd h (List.not_mem_nil c)
  | cons t ts ih =>
    cases ts with
    | nil => exact Or.inr ⟨t, List.mem_cons_self t [], h⟩
    | cons t2 rest =>
      rw [show joinSep sep (t :: t2 :: rest) = t ++ sep :: joinSep sep (t2 :: rest) from rfl] at h
      rcases List.mem_append.1 h with hm | hm
      · exact Or.inr ⟨t, List.mem_cons_self t (t2 :: rest), hm⟩
      · rcases List.mem_cons.1 hm with hm | hm
        · exact Or.inl hm
        · rcases ih hm with hc | ⟨u, hu, hcu⟩
          · exact Or.inl hc
          · exact Or.inr ⟨u, List.mem_cons_of_mem t hu, hcu⟩

theorem convert_chars (l : List ℕ) :
    ∀ c ∈ convert_lines_to_ranges l, isDigitC c = true ∨ c = '-' ∨ c = ',' := by
  intro c hc
  unfold convert_lines_to_ranges at hc
  cases hsort : sortNat l with
  | nil =>
    rw [hsort] at hc
    exact absurd hc (List.not_mem_nil c)
  | cons x xs =>
    rw [hsort] at hc
    rcases mem_joinSep ',' _ c hc with hcs | ⟨t, ht, hct⟩
    · exact Or.inr (Or.inr hcs)
    · rcases List.mem_map.1 ht with ⟨p, _, rfl⟩
      rcases renderRange_chars p c hct with hd | hd
      · exact Or.inl hd
      · exact Or.inr (Or.inl hd)

theorem newline_not_in_file_line (d : Dict) (fp : Str) (h : '\n' ∉ fp) :
    '\n' ∉ pyLjust (fp ++ [':']) (maxKeyLen d + 2) ++ ' ' ::
      convert_lines_to_ranges (finsetAsc (dictGetD d fp)) := by
  intro hm
  rcases List.mem_append.1 hm with hm | hm
  · unfold pyLjust at hm
    rcases List.mem_append.1 hm with hm | hm
    · rcases List.mem_append.1 hm with hm | hm
      · exact h hm
      · rw [List.mem_singleton] at hm
        exact absurd hm (by decide)
    · exact absurd (List.eq_of_mem_replicate hm) (by decide)
  · rcases List.mem_cons.1 hm with hm | hm
    · exact absurd hm (by decide)
    · rcases convert_chars _ '\n' hm with hd | hd | hd
      · exact absurd hd (by decide)
      · exact absurd hd (by decide)
      · exact absurd hd (by decide)

theorem note_lines (d : Dict) (hne : d ≠ [])
    (hnl : ∀ fp ∈ dictKeys d, '\n' ∉ fp) :
    splitOnChar '\n' (generate_claude_note d) =
      "claude-was-here".toList :: "version: 1.0".toList ::
        (sortStrs (dictKeys d)).filterMap (fun fp =>
          if (convert_lines_to_ranges (finsetAsc (dictGetD d fp))).isEmpty then none
          else some (pyLjust (fp ++ [':']) (maxKeyLen d + 2) ++ ' ' ::
            convert_lines_to_ranges (finsetAsc (dictGetD d fp)))) := by
  obtain ⟨kv, rest, rfl⟩ : ∃ kv rest, d = kv :: rest := by
    cases d with
    | nil => exact absurd rfl hne
    | cons kv rest => exact ⟨kv, rest, rfl⟩
  have hgen : generate_claude_note (kv :: rest) =
      joinSep '\n' ("claude-was-here".toList :: "version: 1.0".toList ::
        (sortStrs (dictKeys (kv :: rest))).filterMap (fun fp =>
          if (convert_lines_to_ranges (finsetAsc (dictGetD (kv :: rest) fp))).isEmpty then none
          else some (pyLjust (fp ++ [':']) (maxKeyLen (kv :: rest) + 2) ++ ' ' ::
            convert_lines_to_ranges (finsetAsc (dictGetD (kv :: rest) fp))))) := rfl
  rw [hgen]
  apply splitOnChar_joinSep
  · simp
  · intro lineX hline
    rcases List.mem_cons.1 hline with rfl | hline
    · decide
    rcases List.mem_cons.1 hline with rfl | hline
    · decide
    rcases List.mem_filterMap.1 hline with ⟨fp, hfp, hF⟩
    by_cases hemp : (convert_lines_to_ranges (finsetAsc (dictGetD (kv :: rest) fp))).isEmpty = true
    · rw [if_pos hemp] at hF
      exact absurd hF (by simp)
    · rw [if_neg hemp] at hF
      obtain rfl := Option.some.inj hF
      exact newline_not_in_file_line (kv :: rest) fp
        (hnl fp ((List.mem_insertionSort _).1 hfp))

/-- C4 (amended): for a non-empty AttributedLineSet (with newline-free
paths), the note is the two headers followed by one line per sorted path
with a non-empty range string, each line being the path plus a colon
right-padded (Python `ljust`) with spaces to width (longest path length +
2) — so the range strings, not the colons, are column-aligned — followed by
a single space and the range string; the paths appear sorted
lexicographically by code point. -/
theorem note_layout (d : Dict) (hne : d ≠ [])
    (hnl : ∀ fp ∈ dictKeys d, '\n' ∉ fp) :
    splitOnChar '\n' (generate_claude_note d) =
      "claude-was-here".toList :: "version: 1.0".toList ::
        (sortStrs (dictKeys d)).filterMap (fun fp =>
          if (convert_lines_to_ranges (finsetAsc (dictGetD d fp))).isEmpty then none
          else some (pyLjust (fp ++ [':']) (maxKeyLen d + 2) ++ ' ' ::
            convert_lines_to_ranges (finsetAsc (dictGetD d fp))))
    ∧ (∀ fp ∈ dictKeys d,
        (pyLjust (fp ++ [':']) (maxKeyLen d + 2)).length = maxKeyLen d + 2)
    ∧ List.Sorted (fun a b => strLeB a b = true) (sortStrs (dictKeys d)) := by
  refine ⟨note_lines d hne hnl, fun fp hfp => ?_, List.sorted_insertionSort _ _⟩
  apply pyLjust_length
  have hle := length_le_maxKeyLen d fp hfp
  rw [List.length_append]
  simp only [List.length_singleton]
  omega

/-- Witness for `note_layout`: the two-file attributed set used in the
counterexample, fully evaluated. -/
theorem note_layout_witness :
    splitOnChar '\n' (generate_claude_note [("a".toList, {5}), ("bc".toList, {7})]) =
      ["claude-was-here".toList, "version: 1.0".toList, "a:   5".toList, "bc:  7".toList] := by
  have h := (note_layout [("a".toList, {5}), ("bc".toList, {7})] (by decide) (by decide)).1
  rw [h]
  decide

end ClaudeLines

namespace ClaudeLines

theorem renderRange_ne_nil (p : ℕ × ℕ) : renderRange p ≠ [] := by
  unfold renderRange
  by_cases h : p.1 = p.2
  · rw [if_pos h]
    exact natDigits_ne_nil _
  · rw [if_neg h]
    intro e
    exact natDigits_ne_nil p.1 (List.append_eq_nil.1 e).1

theorem convert_ne_nil (l : List ℕ) (hl : l ≠ []) : convert_lines_to_ranges l ≠ [] := by
  unfold convert_lines_to_ranges
  cases hsort : sortNat l with
  | nil =>
    have hnil : l = [] := by
      have hp : List.Perm l (sortNat l) := (sortNat_perm l).symm
      rw [hsort] at hp
      exact List.Perm.eq_nil hp
    exact absurd hnil hl
  | cons x xs =>
    show joinSep ',' ((rangesGo x x xs).map renderRange) ≠ []
    cases hr : rangesGo x x xs with
    | nil => exact absurd hr (rangesGo_ne_nil x x xs)
    | cons p ps =>
      cases ps with
      | nil => exact renderRange_ne_nil p
      | cons p2 ps2 =>
        show joinSep ',' (renderRange p :: renderRange p2 :: ps2.map renderRange) ≠ []
        intro e
        rw [show joinSep ',' (renderRange p :: renderRange p2 :: ps2.map renderRange) =
            renderRange p ++ ',' :: joinSep ',' (renderRange p2 :: ps2.map renderRange)
          from rfl] at e
        exact renderRange_ne_nil p (List.append_eq_nil.1 e).1

theorem convert_finsetAsc_empty_iff (S : Finset ℕ) :
    convert_lines_to_ranges (finsetAsc S) = [] ↔ S = ∅ := by
  constructor
  · intro h
    by_cases hf : finsetAsc S = []
    · rw [← finsetAsc_toFinset S, hf]
      rfl
    · exact absurd h (convert_ne_nil _ hf)
  · intro h
    subst h
    rfl

theorem filterMap_eq_filter_map_note (d : Dict) (l : List Str) :
    l.filterMap (fun fp =>
      if (convert_lines_to_ranges (finsetAsc (dictGetD d fp))).isEmpty then none
      else some (pyLjust (fp ++ [':']) (maxKeyLen d + 2) ++ ' ' ::
        convert_lines_to_ranges (finsetAsc (dictGetD d fp)))) =
    (l.filter (fun fp => decide (dictGetD d fp ≠ ∅))).map
      (fun fp => pyLjust (fp ++ [':']) (maxKeyLen d + 2) ++ ' ' ::
        convert_lines_to_ranges (finsetAsc (dictGetD d fp))) := by
  induction l with
  | nil => rfl
  | cons fp l ih =>
    by_cases hemp : dictGetD d fp = ∅
    · simp [List.filterMap_cons, List.filter_cons, hemp,
        show convert_lines_to_ranges (finsetAsc (∅ : Finset ℕ)) = [] from rfl]
      simpa using ih
    · have hf : finsetAsc (dictGetD d fp) ≠ [] := by
        intro e
        apply hemp
        rw [← finsetAsc_toFinset (dictGetD d fp), e]
        rfl
      have hcne : ¬(convert_lines_to_ranges (finsetAsc (dictGetD d fp)) = []) :=
        convert_ne_nil _ hf
      simp [List.filterMap_cons, List.filter_cons, hcne, hemp]
      simpa using ih

/-- C7: the empty AttributedLineSet yields a note of exactly the two header
lines, and in general a file whose computed range string is empty
(equivalently, whose line set is empty) is omitted from the note entirely:
the note's lines are the headers plus one line per sorted path with a
non-empty set. -/
theorem empty_note_and_omission :
    generate_claude_note [] = "claude-was-here\nversion: 1.0".toList
    ∧ ∀ (d : Dict), (∀ fp ∈ dictKeys d, '\n' ∉ fp) →
      splitOnChar '\n' (generate_claude_note d) =
        "claude-was-here".toList :: "version: 1.0".toList ::
          ((sortStrs (dictKeys d)).filter (fun fp => decide (dictGetD d fp ≠ ∅))).map
            (fun fp => pyLjust (fp ++ [':']) (maxKeyLen d + 2) ++ ' ' ::
              convert_lines_to_ranges (finsetAsc (dictGetD d fp))) := by
  refine ⟨rfl, fun d hnl => ?_⟩
  by_cases hne : d = []
  · subst hne
    decide
  · rw [note_lines d hne hnl, filterMap_eq_filter_map_note]

/-- Witness for `empty_note_and_omission`: a set attributing `{5}` to `a`
and the empty set to `b` produces a note with a line for `a` only. -/
theorem empty_note_and_omission_witness :
    splitOnChar '\n' (generate_claude_note [("a".toList, {5}), ("b".toList, (∅ : Finset ℕ))]) =
      ["claude-was-here".toList, "version: 1.0".toList, "a:  5".toList] := by
  have h := empty_note_and_omission.2 [("a".toList, {5}), ("b".toList, ∅)] (by decide)
  rw [h]
  decide

end ClaudeLines
